import Mathlib

/-!
Verification of the Collage partition-rule algebra
(`src/relay/collage/partition_rule.h`).

The repository ships the header declaring the rule hierarchy
(`PartitionRuleNode` and its subclasses, each overriding `AllCandidates`).
The data model and the per-variant semantics of `AllCandidates` are embedded
below; where only declarations appear in the header, the behaviour is
modelled from the specification, as noted on each definition.
-/

namespace Collage

/-- Fusability ordinal threshold `kOutEWiseFusable` of the `TOpPattern`
operator attribute ("element-wise fusable"); the ordinals below it are
`kElemWise = 0`, `kBroadcast = 1`, `kInjective = 2`, `kCommReduce = 3`;
above are `kTuple = 7` and `kOpaque = 8`. -/
def kOutEWiseFusable : Nat := 4

/-- The shape of one dataflow-graph node, as far as the partition rules
inspect it: a call to a primitive operator (carrying its `TOpPattern`
fusability ordinal), a call to a non-operator function, tuple construction,
tuple projection, a let binding, a reference-cell operation, or anything
else. -/
inductive SubExprKind where
  | opCall (opPatternKind : Nat)
  | nonOpCall
  | tuple
  | tupleProj
  | letBinding
  | refOp
  | other
deriving DecidableEq, Repr

/-- The dataflow graph: an immutable, topologically ordered view of the
program with stable integer node identities; node `i` is `nodes.get? i`.
Consumed read-only by every rule. -/
structure DataflowGraph where
  nodes : List SubExprKind
deriving DecidableEq, Repr

/-- A pending attribute value: the fixed vocabulary is `Composite = <name>`
(string), `Primitive = true` (boolean), `Compiler = <id>` (string). -/
inductive AttrValue where
  | boolVal (b : Bool)
  | strVal (s : String)
deriving DecidableEq, Repr

/-- Modelled from the spec: `CandidatePartition`
(`candidate_partition.h` is not in src). A candidate associates a sub-graph
(a set of node identities), a provenance chain of rule names (innermost
rule first), and the pending attributes to apply if the candidate is
selected. Target and cost are filled in downstream and play no role in
enumeration. -/
structure CandidatePartition where
  rule_names : List String
  sub_graph : List Nat
  attrs : List (String × AttrValue)
deriving DecidableEq, Repr

/-- Modelled from the spec: `SubGraphConfig` (`sub_graph.h` is not in src).
Configuration for the sub-graph validity service: maximum depth, maximum
number of independent outputs, and whether taps are allowed. -/
structure SubGraphConfig where
  max_depth : Nat
  max_exits : Nat
  allow_taps : Bool
deriving DecidableEq, Repr

/-- Modelled from the spec: `PartitionSpec` (`partition_spec.h` is not in
src). The target identifier and backend-specific target attributes
(e.g. the "compiler" tag) supplied to every rule invocation. -/
structure PartitionSpec where
  target_id : String
  target_attrs : List (String × String)
deriving DecidableEq, Repr

/-- Specification accessor `target_attribute(specification, key)`:
first binding of `key` among the target attributes, if any. -/
def targetAttr (spec : PartitionSpec) (key : String) : Option String :=
  spec.target_attrs.lookup key

/-- The partition-rule algebra of `partition_rule.h` as a closed tagged
union, one constructor per subclass of `PartitionRuleNode`:
`DFPatternPartitionRule` (the pattern is embedded together with the
external pattern-matching service as a function from the graph to the list
of matched node sets, and the predicate as a function on the matched node
set), `CompositePartitionRule`, `PrimitivePartitionRule`,
`UnionPartitionRule`, `OpCallByKindPartitionRule`, `OnlyValidPartitionRule`
(storing its `SubGraphConfig`) and `HostPartitionRule`. Every rule carries
its `rule_name_`. -/
inductive PartitionRule where
  | dfPattern (rule_name : String) (matchAll : DataflowGraph → List (List Nat))
      (predicate : List Nat → Bool)
  | composite (rule_name : String) (sub_rule : PartitionRule)
  | primWrap (rule_name : String) (sub_rule : PartitionRule)
  | union (rule_name : String) (sub_rules : List PartitionRule)
  | opCallByKind (rule_name : String)
  | onlyValid (rule_name : String) (sub_rule : PartitionRule)
      (config : SubGraphConfig)
  | host (rule_name : String)

/-- The pending attributes `PrimitivePartitionRule` adds to each candidate:
`Primitive = true`, and `Compiler = <id>` when the specification's target
attributes include a "compiler" identifier `<id>`. -/
def primPendingAttrs (spec : PartitionSpec) : List (String × AttrValue) :=
  ("Primitive", AttrValue.boolVal true) ::
    (match targetAttr spec "compiler" with
     | some id => [("Compiler", AttrValue.strVal id)]
     | none => [])

/-- The candidate `OpCallByKindPartitionRule` draws from graph node `i`, if
any: a singleton candidate when node `i` is a call whose callee is a
primitive operator with `TOpPattern` ordinal at or below
`kOutEWiseFusable`; nothing for any other node (calls to non-operators,
tuple construction, tuple projection, ...). -/
def opCallByKindAt (rule_name : String) (g : DataflowGraph) (i : Nat) :
    Option CandidatePartition :=
  match g.nodes.get? i with
  | some (SubExprKind.opCall k) =>
      if k ≤ kOutEWiseFusable then
        some { rule_names := [rule_name], sub_graph := [i], attrs := [] }
      else none
  | _ => none

/-- The candidates `OpCallByKindPartitionRule` draws from the graph: the
scan over every node in index order. -/
def opCallByKindCandidates (rule_name : String) (g : DataflowGraph) :
    List CandidatePartition :=
  (List.range g.nodes.length).filterMap (opCallByKindAt rule_name g)

/-- Whether a node is one the built-in execution engine must handle
regardless of any specialized backend — the nodes `HostPartitionRule`
selects: let bindings, reference-cell operations, calls to non-operator
(user-defined) functions, and tuple construction/projection. -/
def isHostKind : SubExprKind → Bool
  | SubExprKind.letBinding => true
  | SubExprKind.refOp => true
  | SubExprKind.nonOpCall => true
  | SubExprKind.tuple => true
  | SubExprKind.tupleProj => true
  | _ => false

/-- The candidate `HostPartitionRule` draws from graph node `i`, if any: a
singleton candidate when node `i` can be 'left behind' for execution by the
host, and nothing otherwise. Host candidates carry no pending attributes —
host nodes are never wrapped. -/
def hostAt (rule_name : String) (g : DataflowGraph) (i : Nat) :
    Option CandidatePartition :=
  match g.nodes.get? i with
  | some kind =>
      if isHostKind kind then
        some { rule_names := [rule_name], sub_graph := [i], attrs := [] }
      else none
  | none => none

mutual

/-- Modelled from the spec: the `AllCandidates` override of every
`PartitionRuleNode` subclass (only declared in the header; the definitions
in `partition_rule.cc` are not in src). The external validity service
`is_valid(sub_graph, config)` is passed in as `valid` (its internal
algorithm is an out-of-scope service).
  * `dfPattern`: one candidate per pattern match accepted by the predicate,
    sub-graph exactly the matched node set, provenance `[rule_name]`.
  * `composite`: delegates to the sub-rule; appends its own name to each
    candidate's provenance and adds pending attribute
    `Composite = rule_name`.
  * `primWrap` (`PrimitivePartitionRule`): delegates to the sub-rule;
    appends its own name to each provenance and adds `Primitive = true`,
    plus `Compiler = <id>` when the spec's target attributes carry a
    "compiler" identifier.
  * `union`: concatenation of the sub-rules' candidate lists in declaration
    order, unchanged.
  * `opCallByKind`: singleton candidates for fusable operator calls.
  * `onlyValid`: keeps exactly the sub-rule candidates whose sub-graph the
    validity service accepts under the stored configuration.
  * `host`: one singleton candidate, with no pending attributes, per node
    the built-in execution engine must handle regardless of any specialized
    backend: let bindings, reference-cell operations, calls to non-operator
    functions, and tuple construction/projection. -/
def AllCandidates (valid : DataflowGraph → List Nat → SubGraphConfig → Bool)
    (g : DataflowGraph) (spec : PartitionSpec) :
    PartitionRule → List CandidatePartition
  | PartitionRule.dfPattern rule_name matchAll predicate =>
      ((matchAll g).filter predicate).map (fun nodes =>
        { rule_names := [rule_name], sub_graph := nodes, attrs := [] })
  | PartitionRule.composite rule_name sub_rule =>
      (AllCandidates valid g spec sub_rule).map (fun c =>
        { c with rule_names := c.rule_names ++ [rule_name],
                 attrs := c.attrs ++ [("Composite", AttrValue.strVal rule_name)] })
  | PartitionRule.primWrap rule_name sub_rule =>
      (AllCandidates valid g spec sub_rule).map (fun c =>
        { c with rule_names := c.rule_names ++ [rule_name],
                 attrs := c.attrs ++ primPendingAttrs spec })
  | PartitionRule.union _ sub_rules =>
      AllCandidatesOfRules valid g spec sub_rules
  | PartitionRule.opCallByKind rule_name =>
      opCallByKindCandidates rule_name g
  | PartitionRule.onlyValid _ sub_rule config =>
      (AllCandidates valid g spec sub_rule).filter
        (fun c => valid g c.sub_graph config)
  | PartitionRule.host rule_name =>
      (List.range g.nodes.length).filterMap (hostAt rule_name g)

/-- The enumeration of a list of sub-rules in declaration order: each
sub-rule's candidate list, concatenated (the body of
`UnionPartitionRuleNode::AllCandidates`). -/
def AllCandidatesOfRules (valid : DataflowGraph → List Nat → SubGraphConfig → Bool)
    (g : DataflowGraph) (spec : PartitionSpec) :
    List PartitionRule → List CandidatePartition
  | [] => []
  | r :: rs =>
      AllCandidates valid g spec r ++ AllCandidatesOfRules valid g spec rs

end

/-- The immediate sub-rule relation of the rule tree: `SubRuleOf a b` holds
when `a` is stored as a direct sub-rule of the combinator `b`
(`CompositePartitionRuleNode::sub_rule_`,
`PrimitivePartitionRuleNode::sub_rule_`,
`OnlyValidPartitionRuleNode::sub_rule_`, or a member of
`UnionPartitionRuleNode::sub_rules_`). Base rules have no sub-rules. -/
inductive SubRuleOf : PartitionRule → PartitionRule → Prop where
  | composite (n : String) (sub : PartitionRule) :
      SubRuleOf sub (PartitionRule.composite n sub)
  | primWrap (n : String) (sub : PartitionRule) :
      SubRuleOf sub (PartitionRule.primWrap n sub)
  | onlyValid (n : String) (sub : PartitionRule) (cfg : SubGraphConfig) :
      SubRuleOf sub (PartitionRule.onlyValid n sub cfg)
  | union (n : String) (subs : List PartitionRule) (r : PartitionRule) :
      r ∈ subs → SubRuleOf r (PartitionRule.union n subs)

theorem subRuleOf_sizeOf_lt (a b : PartitionRule) (h : SubRuleOf a b) :
    sizeOf a < sizeOf b := by
  cases h with
  | composite n sub => simp
  | primWrap n sub => simp
  | onlyValid n sub cfg =>
      simp
      omega
  | union n subs r hmem =>
      have hlt := List.sizeOf_lt_of_mem hmem
      simp
      omega

theorem allCandidatesOfRules_eq_join
    (valid : DataflowGraph → List Nat → SubGraphConfig → Bool)
    (g : DataflowGraph) (spec : PartitionSpec) :
    ∀ rs : List PartitionRule,
      AllCandidatesOfRules valid g spec rs
        = (rs.map (AllCandidates valid g spec)).flatten := by
  intro rs
  induction rs with
  | nil => simp [AllCandidatesOfRules]
  | cons r rs ih => simp [AllCandidatesOfRules, ih]

/-- A rule tree "includes a `HostPartitionRule` directly or nested under a
`UnionPartitionRule`": either the rule is itself a `HostPartitionRule`, or
it is a `UnionPartitionRule` one of whose sub-rules does. -/
inductive ContainsHost : PartitionRule → Prop where
  | host (n : String) : ContainsHost (PartitionRule.host n)
  | union (n : String) (subs : List PartitionRule) (r : PartitionRule) :
      r ∈ subs → ContainsHost r → ContainsHost (PartitionRule.union n subs)

theorem mem_allCandidatesOfRules_of_mem
    (valid : DataflowGraph → List Nat → SubGraphConfig → Bool)
    (g : DataflowGraph) (spec : PartitionSpec) (r : PartitionRule)
    (rs : List PartitionRule) (hr : r ∈ rs) (c : CandidatePartition)
    (hc : c ∈ AllCandidates valid g spec r) :
    c ∈ AllCandidatesOfRules valid g spec rs := by
  induction hr with
  | head xs =>
      simp only [AllCandidatesOfRules, List.mem_append]
      exact Or.inl hc
  | tail x hx ih =>
      simp only [AllCandidatesOfRules, List.mem_append]
      exact Or.inr ih

theorem count_filterMap_eq_zero {α β : Type} [DecidableEq β]
    (f : α → Option β) (b : β) (l : List α)
    (hl : ∀ x, x ∈ l → f x ≠ some b) :
    (l.filterMap f).count b = 0 := by
  rw [List.count_eq_zero]
  intro hb
  obtain ⟨a, ha, hfa⟩ := List.mem_filterMap.mp hb
  exact hl a ha hfa

theorem count_filterMap_eq_one {α β : Type} [DecidableEq β]
    (f : α → Option β) (b : β) :
    ∀ l : List α, l.Nodup → ∀ a, a ∈ l → f a = some b →
      (∀ x, x ∈ l → f x = some b → x = a) →
      (l.filterMap f).count b = 1 := by
  intro l
  induction l with
  | nil =>
      intro _ a ha
      cases ha
  | cons x xs ih =>
      intro hnd a ha hfa huniq
      cases hfx : f x with
      | none =>
          rw [List.filterMap_cons_none hfx]
          have hax : a ≠ x := fun h => by rw [h, hfx] at hfa; cases hfa
          have haxs : a ∈ xs := by
            rcases List.mem_cons.mp ha with h | h
            · exact absurd h hax
            · exact h
          exact ih (List.Nodup.of_cons hnd) a haxs hfa
            (fun y hy hfy => huniq y (List.mem_cons_of_mem x hy) hfy)
      | some c =>
          rw [List.filterMap_cons_some hfx]
          by_cases hcb : c = b
          · subst hcb
            have hxa : x = a := huniq x (List.mem_cons_self x xs) hfx
            subst hxa
            rw [List.count_cons_self]
            have : (xs.filterMap f).count c = 0 := by
              apply count_filterMap_eq_zero
              intro y hy hfy
              have : y = x := huniq y (List.mem_cons_of_mem x hy) hfy
              subst this
              exact (List.nodup_cons.mp hnd).1 hy
            omega
          · rw [List.count_cons_of_ne (fun h => hcb h.symm)]
            have hax : a ≠ x := fun h => by
              rw [h, hfx] at hfa
              exact hcb (Option.some.inj hfa)
            have haxs : a ∈ xs := by
              rcases List.mem_cons.mp ha with h | h
              · exact absurd h hax
              · exact h
            exact ih (List.Nodup.of_cons hnd) a haxs hfa
              (fun y hy hfy => huniq y (List.mem_cons_of_mem x hy) hfy)

theorem opCallByKindAt_eq_some (rule_name : String) (g : DataflowGraph)
    (i : Nat) (c : CandidatePartition) :
    opCallByKindAt rule_name g i = some c
      ↔ ∃ k, g.nodes.get? i = some (SubExprKind.opCall k)
          ∧ k ≤ kOutEWiseFusable
          ∧ c = { rule_names := [rule_name], sub_graph := [i], attrs := [] } := by
  unfold opCallByKindAt
  cases hget : g.nodes.get? i with
  | none => simp
  | some kind =>
      cases kind with
      | opCall k =>
          by_cases hk : k ≤ kOutEWiseFusable
          · simp [hk, eq_comm]
          · simp [hk]
      | nonOpCall => simp
      | tuple => simp
      | tupleProj => simp
      | letBinding => simp
      | refOp => simp
      | other => simp

/-- C1: `CompositePartitionRule` and `PrimitivePartitionRule` are
sub-graph-preserving pass-throughs of their `sub_rule_`: the output
candidate list is positionally the sub-rule's candidate list with each
candidate's node set untouched; only the provenance chain (own name
appended) and the pending attributes (`Composite = name`, resp.
`Primitive`/`Compiler`) are changed — `sub_graph` being the only other
candidate component, nothing else differs. -/
theorem pass_through_same_sub_graph
    (valid : DataflowGraph → List Nat → SubGraphConfig → Bool)
    (g : DataflowGraph) (spec : PartitionSpec) (name : String)
    (sub : PartitionRule) :
    ((AllCandidates valid g spec (PartitionRule.composite name sub)).map
        CandidatePartition.sub_graph
      = (AllCandidates valid g spec sub).map CandidatePartition.sub_graph)
    ∧ ((AllCandidates valid g spec (PartitionRule.primWrap name sub)).map
        CandidatePartition.sub_graph
      = (AllCandidates valid g spec sub).map CandidatePartition.sub_graph)
    ∧ (AllCandidates valid g spec (PartitionRule.composite name sub)
        = (AllCandidates valid g spec sub).map (fun c =>
            { c with rule_names := c.rule_names ++ [name],
                     attrs := c.attrs
                       ++ [("Composite", AttrValue.strVal name)] }))
    ∧ (AllCandidates valid g spec (PartitionRule.primWrap name sub)
        = (AllCandidates valid g spec sub).map (fun c =>
            { c with rule_names := c.rule_names ++ [name],
                     attrs := c.attrs ++ primPendingAttrs spec })) := by
  refine ⟨?_, ?_, ?_, ?_⟩ <;> simp [AllCandidates, List.map_map, Function.comp]

/-- C2: enumeration is deterministic and stateless — it is a pure function
of the dataflow graph and the partition specification, so two invocations
with identical graph and specification return candidate sequences equal in
content and order. -/
theorem allCandidates_deterministic
    (valid : DataflowGraph → List Nat → SubGraphConfig → Bool)
    (ga gb : DataflowGraph) (speca specb : PartitionSpec)
    (r : PartitionRule) (hg : ga = gb) (hs : speca = specb) :
    AllCandidates valid ga speca r = AllCandidates valid gb specb r := by
  subst hg; subst hs; rfl

/-- Witness for C2 at a one-node graph and the `OpCallByKindPartitionRule`. -/
theorem allCandidates_deterministic_witness :
    AllCandidates (fun _ _ _ => true) ⟨[SubExprKind.opCall 0]⟩ ⟨"tvm", []⟩
        (PartitionRule.opCallByKind "ew")
      = AllCandidates (fun _ _ _ => true) ⟨[SubExprKind.opCall 0]⟩ ⟨"tvm", []⟩
        (PartitionRule.opCallByKind "ew") :=
  allCandidates_deterministic (fun _ _ _ => true) _ _ _ _
    (PartitionRule.opCallByKind "ew") rfl rfl

/-- C5: `UnionPartitionRule` returns exactly the concatenation, in
declaration order, of its sub-rules' candidate lists — each sub-list's
internal order preserved, no deduplication, and every candidate (its
provenance chain included) exactly as produced by its originating
sub-rule; in particular the union's own name is never added. -/
theorem union_concatenation
    (valid : DataflowGraph → List Nat → SubGraphConfig → Bool)
    (g : DataflowGraph) (spec : PartitionSpec) (name : String)
    (subs : List PartitionRule) :
    AllCandidates valid g spec (PartitionRule.union name subs)
      = (subs.map (AllCandidates valid g spec)).flatten := by
  simp [AllCandidates, allCandidatesOfRules_eq_join]

/-- C4: provenance growth. Wrapping combinators lengthen every candidate's
provenance chain by exactly one name (`CompositePartitionRule` and
`PrimitivePartitionRule` each append their own name), while
`UnionPartitionRule` returns every provenance chain exactly as its
originating sub-rule produced it and `OnlyValidPartitionRule` returns a
sublist of its sub-rule's candidates unchanged. -/
theorem provenance_growth
    (valid : DataflowGraph → List Nat → SubGraphConfig → Bool)
    (g : DataflowGraph) (spec : PartitionSpec) (name : String)
    (sub : PartitionRule) (subs : List PartitionRule)
    (cfg : SubGraphConfig) :
    ((AllCandidates valid g spec (PartitionRule.composite name sub)).map
        (fun c => c.rule_names.length)
      = (AllCandidates valid g spec sub).map
          (fun c => c.rule_names.length + 1))
    ∧ ((AllCandidates valid g spec (PartitionRule.primWrap name sub)).map
        (fun c => c.rule_names.length)
      = (AllCandidates valid g spec sub).map
          (fun c => c.rule_names.length + 1))
    ∧ ((AllCandidates valid g spec (PartitionRule.union name subs)).map
        CandidatePartition.rule_names
      = (subs.map (fun r =>
          (AllCandidates valid g spec r).map
            CandidatePartition.rule_names)).flatten)
    ∧ List.Sublist
        (AllCandidates valid g spec (PartitionRule.onlyValid name sub cfg))
        (AllCandidates valid g spec sub) := by
  refine ⟨?_, ?_, ?_, ?_⟩
  · simp [AllCandidates, List.map_map, Function.comp]
  · simp [AllCandidates, List.map_map, Function.comp]
  · simp [AllCandidates, allCandidatesOfRules_eq_join, List.map_flatten,
      List.map_map]
    rfl
  · exact List.filter_sublist _

/-- C6: `OnlyValidPartitionRule` retains exactly those sub-rule candidates
whose sub-graph the validity service accepts under the stored
configuration, in the sub-rule's relative order; invalid candidates are
silently dropped (the result is still an ordinary, possibly shorter,
candidate list — no error path), and every retained candidate is literally
a candidate of the sub-rule, so its provenance and pending attributes are
unchanged. -/
theorem only_valid_filtering
    (valid : DataflowGraph → List Nat → SubGraphConfig → Bool)
    (g : DataflowGraph) (spec : PartitionSpec) (name : String)
    (sub : PartitionRule) (cfg : SubGraphConfig) :
    List.Sublist
        (AllCandidates valid g spec (PartitionRule.onlyValid name sub cfg))
        (AllCandidates valid g spec sub)
    ∧ (∀ c : CandidatePartition,
        c ∈ AllCandidates valid g spec (PartitionRule.onlyValid name sub cfg)
          ↔ (c ∈ AllCandidates valid g spec sub
              ∧ valid g c.sub_graph cfg = true)) := by
  constructor
  · exact List.filter_sublist _
  · intro c
    simp [AllCandidates, List.mem_filter]

/-- C8: `PrimitivePartitionRule` extends every candidate's pending
attributes by exactly `primPendingAttrs spec`, which always contains
`Primitive = true` and contains `Compiler = id` precisely when the
specification's target attributes bind "compiler" to `id`. -/
theorem primitive_pending_attrs
    (valid : DataflowGraph → List Nat → SubGraphConfig → Bool)
    (g : DataflowGraph) (spec : PartitionSpec) (name : String)
    (sub : PartitionRule) :
    ((AllCandidates valid g spec (PartitionRule.primWrap name sub)).map
        CandidatePartition.attrs
      = (AllCandidates valid g spec sub).map
          (fun c => c.attrs ++ primPendingAttrs spec))
    ∧ ("Primitive", AttrValue.boolVal true) ∈ primPendingAttrs spec
    ∧ (∀ id : String,
        ("Compiler", AttrValue.strVal id) ∈ primPendingAttrs spec
          ↔ targetAttr spec "compiler" = some id) := by
  refine ⟨?_, ?_, ?_⟩
  · simp [AllCandidates, List.map_map, Function.comp]
  · simp [primPendingAttrs]
  · intro id
    unfold primPendingAttrs
    cases h : targetAttr spec "compiler" <;> simp [eq_comm]

/-- C9: the validity filter is idempotent — wrapping a rule in
`OnlyValidPartitionRule` twice with the same configuration yields the same
candidate sequence as wrapping it once. -/
theorem only_valid_idempotent
    (valid : DataflowGraph → List Nat → SubGraphConfig → Bool)
    (g : DataflowGraph) (spec : PartitionSpec) (na nb : String)
    (sub : PartitionRule) (cfg : SubGraphConfig) :
    AllCandidates valid g spec
        (PartitionRule.onlyValid na (PartitionRule.onlyValid nb sub cfg) cfg)
      = AllCandidates valid g spec (PartitionRule.onlyValid nb sub cfg) := by
  simp [AllCandidates, List.filter_filter]

/-- C3 counterexample: a rule tree consisting of `HostPartitionRule` alone
(so `ContainsHost` holds) over a one-node graph whose node is a fusable
primitive-operator call enumerates to the empty candidate list — node 0
lies in no candidate's sub-graph, refuting "every node of the graph is
contained in the sub-graph of at least one candidate". -/
theorem host_coverage_counterexample :
    ContainsHost (PartitionRule.host "host")
    ∧ (0 < (DataflowGraph.mk [SubExprKind.opCall 0]).nodes.length)
    ∧ ¬ ∃ c, c ∈ AllCandidates (fun _ _ _ => true)
          (DataflowGraph.mk [SubExprKind.opCall 0]) (PartitionSpec.mk "tvm" [])
          (PartitionRule.host "host")
        ∧ 0 ∈ c.sub_graph := by
  refine ⟨ContainsHost.host "host", by decide, ?_⟩
  rintro ⟨c, hc, -⟩
  have hempty : AllCandidates (fun _ _ _ => true)
      (DataflowGraph.mk [SubExprKind.opCall 0]) (PartitionSpec.mk "tvm" [])
      (PartitionRule.host "host") = [] := by decide
  rw [hempty] at hc
  cases hc

/-- C3 as amended: coverage holds for the host-eligible nodes. Whenever the
rule tree includes a `HostPartitionRule`, directly or nested under
`UnionPartitionRule`s, every node of the graph that the built-in execution
engine must handle (a let binding, reference-cell operation, non-operator
call, tuple construction or tuple projection) is contained in the sub-graph
of at least one returned candidate. -/
theorem host_coverage_hostkind
    (valid : DataflowGraph → List Nat → SubGraphConfig → Bool)
    (g : DataflowGraph) (spec : PartitionSpec) (r : PartitionRule)
    (h : ContainsHost r) :
    ∀ i kind, g.nodes.get? i = some kind → isHostKind kind = true →
      ∃ c, c ∈ AllCandidates valid g spec r ∧ i ∈ c.sub_graph := by
  induction h with
  | host n =>
      intro i kind hget hkind
      have hi : i < g.nodes.length := by
        by_contra hlt
        rw [List.get?_eq_none.mpr (Nat.le_of_not_lt hlt)] at hget
        cases hget
      refine ⟨{ rule_names := [n], sub_graph := [i], attrs := [] }, ?_, by simp⟩
      simp only [AllCandidates, List.mem_filterMap]
      refine ⟨i, List.mem_range.mpr hi, ?_⟩
      unfold hostAt
      rw [hget]
      simp [hkind]
  | union n subs rsub hmem hch ih =>
      intro i kind hget hkind
      obtain ⟨c, hc, hic⟩ := ih i kind hget hkind
      refine ⟨c, ?_, hic⟩
      simp only [AllCandidates]
      exact mem_allCandidatesOfRules_of_mem valid g spec rsub subs hmem c hc

/-- Witness for amended C3: a two-node graph (a let binding and a fusable
call) under `UnionPartitionRule("top", [OpCallByKindPartitionRule("ew"),
HostPartitionRule("host")])`; node 0, the let binding, lies in some
candidate's sub-graph. -/
theorem host_coverage_hostkind_witness :
    ContainsHost (PartitionRule.union "top"
        [PartitionRule.opCallByKind "ew", PartitionRule.host "host"])
    ∧ ((DataflowGraph.mk
        [SubExprKind.letBinding, SubExprKind.opCall 0]).nodes.get? 0
          = some SubExprKind.letBinding)
    ∧ isHostKind SubExprKind.letBinding = true
    ∧ ∃ c, c ∈ AllCandidates (fun _ _ _ => true)
          (DataflowGraph.mk [SubExprKind.letBinding, SubExprKind.opCall 0])
          (PartitionSpec.mk "tvm" [])
          (PartitionRule.union "top"
            [PartitionRule.opCallByKind "ew", PartitionRule.host "host"])
        ∧ 0 ∈ c.sub_graph :=
  ⟨ContainsHost.union "top" _ (PartitionRule.host "host")
      (List.Mem.tail _ (List.Mem.head _)) (ContainsHost.host "host"),
   rfl, rfl,
   host_coverage_hostkind (fun _ _ _ => true)
     (DataflowGraph.mk [SubExprKind.letBinding, SubExprKind.opCall 0])
     (PartitionSpec.mk "tvm" [])
     (PartitionRule.union "top"
       [PartitionRule.opCallByKind "ew", PartitionRule.host "host"])
     (ContainsHost.union "top" _ (PartitionRule.host "host")
       (List.Mem.tail _ (List.Mem.head _)) (ContainsHost.host "host"))
     0 SubExprKind.letBinding rfl rfl⟩

/-- C7: `OpCallByKindPartitionRule` emits exactly one singleton candidate
(sub-graph `= [i]`, provenance `[rule_name]`, no pending attributes) for
each node `i` that is a call to a primitive operator whose `TOpPattern`
ordinal is at or below `kOutEWiseFusable`, and every emitted candidate is
of that form — so no candidate for non-operator calls, tuple construction,
or tuple projection. -/
theorem op_call_by_kind_exact
    (valid : DataflowGraph → List Nat → SubGraphConfig → Bool)
    (g : DataflowGraph) (spec : PartitionSpec) (name : String) :
    (∀ c, c ∈ AllCandidates valid g spec (PartitionRule.opCallByKind name) →
      ∃ i k, g.nodes.get? i = some (SubExprKind.opCall k)
        ∧ k ≤ kOutEWiseFusable
        ∧ c = { rule_names := [name], sub_graph := [i], attrs := [] })
    ∧ (∀ i k, g.nodes.get? i = some (SubExprKind.opCall k) →
        k ≤ kOutEWiseFusable →
        (AllCandidates valid g spec (PartitionRule.opCallByKind name)).count
          { rule_names := [name], sub_graph := [i], attrs := [] } = 1) := by
  constructor
  · intro c hc
    simp only [AllCandidates, opCallByKindCandidates, List.mem_filterMap] at hc
    obtain ⟨i, _, hfi⟩ := hc
    obtain ⟨k, hget, hk, hcand⟩ := (opCallByKindAt_eq_some name g i c).mp hfi
    exact ⟨i, k, hget, hk, hcand⟩
  · intro i k hget hk
    have hi : i < g.nodes.length := by
      by_contra hlt
      rw [List.get?_eq_none.mpr (Nat.le_of_not_lt hlt)] at hget
      cases hget
    simp only [AllCandidates, opCallByKindCandidates]
    apply count_filterMap_eq_one (opCallByKindAt name g) _
      (List.range g.nodes.length) (List.nodup_range _) i
      (List.mem_range.mpr hi)
    · exact (opCallByKindAt_eq_some name g i _).mpr ⟨k, hget, hk, rfl⟩
    · intro x _ hfx
      obtain ⟨kx, _, _, hcand⟩ := (opCallByKindAt_eq_some name g x _).mp hfx
      have : ([x] : List Nat) = [i] :=
        congrArg CandidatePartition.sub_graph hcand.symm
      simpa using this

/-- Witness for C7: a graph whose single node is an element-wise operator
call; exactly one candidate with sub-graph `[0]` is emitted. -/
theorem op_call_by_kind_exact_witness :
    ((DataflowGraph.mk [SubExprKind.opCall 0]).nodes.get? 0
        = some (SubExprKind.opCall 0))
    ∧ (0 ≤ kOutEWiseFusable)
    ∧ (AllCandidates (fun _ _ _ => true)
        (DataflowGraph.mk [SubExprKind.opCall 0]) (PartitionSpec.mk "tvm" [])
        (PartitionRule.opCallByKind "ew")).count
        { rule_names := ["ew"], sub_graph := [0], attrs := [] } = 1 :=
  ⟨rfl, by decide,
   (op_call_by_kind_exact (fun _ _ _ => true)
       (DataflowGraph.mk [SubExprKind.opCall 0]) (PartitionSpec.mk "tvm" [])
       "ew").2 0 0 rfl (by decide)⟩

/-- C10: the sub-rule relation of the rule tree is well-founded: rules form
a finite tree with no cycles and no back-references, every sub-rule a
component of exactly the parent combinator that stores it. -/
theorem rule_tree_well_founded : WellFounded SubRuleOf :=
  Subrelation.wf (fun h => subRuleOf_sizeOf_lt _ _ h)
    (InvImage.wf sizeOf Nat.lt_wfRel.wf)

end Collage
